import Mathlib

/-!
Verification of the plugin release-automation scripts: the changelog
section extractor, the changed-paths-to-plugin-names mapper, the tag
history resolver, the change-window (diff / commit log) operations, the
diff truncation policy, and the git tagging step.

Text is modelled at the level of `List Char` (the `data` field of
`String`), with line splitting, trimming and lower-casing defined by
structural recursion so that every definition evaluates by `decide`.
External processes (git commands, the generation API) are modelled as
explicit inputs: a command's outcome is an `Except` value supplied by
the environment.
-/

namespace Plugins

/-- Splits a character list into lines at each newline character,
accumulating the current line in reverse. -/
def splitLinesAux : List Char → List Char → List (List Char)
  | [], acc => [acc.reverse]
  | c :: rest, acc =>
    if c = '\n' then acc.reverse :: splitLinesAux rest []
    else splitLinesAux rest (c :: acc)

/-- Splits a character list into its lines (the model of
`String.split("\n")`). -/
def splitLines (s : List Char) : List (List Char) := splitLinesAux s []

/-- Joins lines with newline separators (the model of
`lines.join("\n")`). -/
def joinLines : List (List Char) → List Char
  | [] => []
  | [l] => l
  | l :: rest => l ++ '\n' :: joinLines rest

/-- Removes leading and trailing whitespace characters (the model of
`String.trim`). -/
def trimChars (s : List Char) : List Char :=
  ((s.dropWhile Char.isWhitespace).reverse.dropWhile Char.isWhitespace).reverse

/-- Lower-cases every character (the model of `String.toLowerCase`). -/
def lowerChars (s : List Char) : List Char := s.map Char.toLower

/-- Drops the leading run of `#` characters from a line. -/
def dropHashes : List Char → List Char
  | [] => []
  | c :: rest => if c = '#' then dropHashes rest else c :: rest

/-- After at least one leading `#`, checks that the rest of the line
starts with a further `#` or a whitespace character. -/
def hashesThenWs : List Char → Bool
  | [] => false
  | c :: rest => if c = '#' then hashesThenWs rest else c.isWhitespace

/-- Modelled from the spec: a heading line is one or more leading `#`
characters followed by whitespace (the source file `parse-pr.ts` is not
in the repository snapshot; only its test suite is). -/
def isHeadingLine (l : List Char) : Bool :=
  match l with
  | [] => false
  | c :: rest => c = '#' && hashesThenWs rest

/-- Modelled from the spec: the changelog heading is a heading line
whose text after the `#` run, trimmed and compared case-insensitively,
equals `changelog`. -/
def isChangelogHeading (l : List Char) : Bool :=
  isHeadingLine l && lowerChars (trimChars (dropHashes l)) = "changelog".data

/-- Modelled from the spec: the changelog section is the run of lines
strictly after the first changelog heading, up to but not including the
next heading line of any level; `none` when no changelog heading
exists. -/
def changelogSection : List (List Char) → Option (List (List Char))
  | [] => none
  | l :: rest =>
    if isChangelogHeading l then some (rest.takeWhile fun x => !isHeadingLine x)
    else changelogSection rest

/-- Modelled from the spec: extraction over a list of lines — take the
changelog section, join and trim it, and reject an empty result or a
single placeholder dash. -/
def extractFromLines (lines : List (List Char)) : Option (List Char) :=
  match changelogSection lines with
  | none => none
  | some sec =>
    let t := trimChars (joinLines sec)
    if t = [] then none
    else if t = ['-'] then none
    else some t

/-- Modelled from the spec: `extractChangelog(body)` — `null` on a null
or empty body, otherwise extract the changelog section from the body's
lines (the source file `parse-pr.ts` is not in the repository snapshot;
this follows §4.1 of the specification and the behaviour pinned by its
test suite). -/
def extractChangelog (body : Option String) : Option String :=
  match body with
  | none => none
  | some b =>
    if b = "" then none
    else (extractFromLines (splitLines b.data)).map String.mk

/-- Modelled from the spec: the separator characters between changed-file
paths (space, tab and newline; the source file `parse-pr.ts` is not in the
repository snapshot). -/
def isSep (c : Char) : Bool := c = ' ' || c = '\t' || c = '\n'

/-- Splits on runs of separator characters, accumulating the current token in
reverse and discarding empty tokens. -/
def tokenizeAux : List Char → List Char → List (List Char)
  | [], acc => if acc = [] then [] else [acc.reverse]
  | c :: rest, acc =>
    if isSep c then
      if acc = [] then tokenizeAux rest [] else acc.reverse :: tokenizeAux rest []
    else tokenizeAux rest (c :: acc)

/-- Splits a raw changed-files string into whitespace-separated path tokens. -/
def tokenize (s : List Char) : List (List Char) := tokenizeAux s []

/-- Strips the leading characters `pat` from `t`, or fails. -/
def stripLead : List Char → List Char → Option (List Char)
  | [], t => some t
  | _ :: _, [] => none
  | p :: ps, c :: cs => if p = c then stripLead ps cs else none

/-- Modelled from the spec: a changed path yields a plugin name exactly when
it is `plugins/<name>/<more>` — the root, a nonempty first segment, and a
further path component after it. -/
def pluginName (tok : List Char) : Option (List Char) :=
  match stripLead "plugins/".data tok with
  | none => none
  | some rest =>
    let name := rest.takeWhile fun c => c ≠ '/'
    match rest.dropWhile fun c => c ≠ '/' with
    | [] => none
    | _ :: _ => if name = [] then none else some name

/-- Lexicographic comparison of character lists by code point: the ascending
alphabetical order of the mapper's result. -/
def lexLe : List Char → List Char → Bool
  | [], _ => true
  | _ :: _, [] => false
  | a :: as, b :: bs =>
    if a.toNat < b.toNat then true
    else if b.toNat < a.toNat then false
    else lexLe as bs

/-- Ascending order on strings, as used to sort the plugin names. -/
def strLe (a b : String) : Prop := lexLe a.data b.data = true

/-- The order on plugin names is decidable, so the sort is executable. -/
def strLeDec : DecidableRel strLe := fun a b =>
  instDecidableEqBool (lexLe a.data b.data) true

/-- Modelled from the spec: `parseChangedPlugins(raw)` — tokenize on
whitespace, map tokens to plugin names, deduplicate, and sort ascending (the
source file `parse-pr.ts` is not in the repository snapshot; this follows
§4.2 of the specification and the behaviour pinned by its test suite). -/
def parseChangedPlugins (raw : String) : List String :=
  @List.insertionSort String strLe strLeDec
    (((tokenize raw.data).filterMap pluginName).map String.mk).dedup

/-- Whitespace-run slugification with lower-casing: the model of
`name.toLowerCase().replace(/\s+/g, "-")`. -/
def slugChars : List Char → Bool → List Char
  | [], _ => []
  | c :: rest, inWs =>
    if c.isWhitespace then
      if inWs then slugChars rest true else '-' :: slugChars rest true
    else c.toLower :: slugChars rest false

/-- Slugified plugin display name. -/
def slugify (s : String) : List Char := slugChars s.data false

/-- The tag pattern stem for a plugin: the slugified display name plus `-v`,
as computed by `getLastTagForPlugin`. -/
def tagStem (name : String) : List Char := slugify name ++ "-v".data

/-- Whether `t` starts with the characters `pat` (the glob `pat*`). -/
def matchStart (pat t : List Char) : Bool :=
  match stripLead pat t with
  | none => false
  | some _ => true

/-- Descending sort of tag names under a version-aware comparison `vle`. -/
def sortDescBy (vle : String → String → Bool) (l : List String) : List String :=
  @List.insertionSort String (fun a b => vle b a = true)
    (fun a b => instDecidableEqBool (vle b a) true) l

/-- The modelled result of `git tag -l "<stem>*" --sort=-v:refname` run in
the repository: `repoTags = none` models a failing git command (for example a
missing or inaccessible repository); otherwise the output is the matching
tags in descending version-aware order, one per line. -/
def runGitTagList (repoTags : Option (List String)) (vle : String → String → Bool)
    (stem : List Char) : Except Unit String :=
  match repoTags with
  | none => .error ()
  | some ts =>
    .ok (String.mk (joinLines
      ((sortDescBy vle (ts.filter fun t => matchStart stem t.data)).map String.data)))

/-- `getLastTagForPlugin` from `scripts/submit-plugin.ts`: runs the tag
query, trims the output, splits it into lines, drops empty lines, and
returns the first tag; a failing query or an empty tag list gives `none`. -/
def getLastTagForPlugin (name : String) (repoTags : Option (List String))
    (vle : String → String → Bool) : Option String :=
  match runGitTagList repoTags vle (tagStem name) with
  | .error _ => none
  | .ok out =>
    match (splitLines (trimChars out.data)).filter (fun l => !l.isEmpty) with
    | [] => none
    | t :: _ => some (String.mk t)

/-- The git operations `getGitDiff` and `getCommitMessages` shell out to,
modelled as outcomes supplied by the environment. `addLog` holds the lines
printed by `git log --oneline --diff-filter=A -- <path>` (newest commit
first); `diffNoIndex` is the output of
`git diff --no-index /dev/null <path> || true`, which cannot fail because of
the trailing `|| true`. -/
structure GitRepo where
  diffSince : String → Except String String
  addLog : Except String (List (List Char))
  diffFromParent : String → Except String String
  diffNoIndex : String
  logSince : String → Except String String
  logAll : Except String String

/-- `String.trim` over the character-list model. -/
def strTrim (s : String) : String := String.mk (trimChars s.data)

/-- The model of `| tail -1 | cut -d' ' -f1` applied to the add-log output:
the last line's first space-separated field, empty when there are no lines. -/
def lastHashField (lines : List (List Char)) : List Char :=
  match lines.getLast? with
  | none => []
  | some l => l.takeWhile fun c => c ≠ ' '

/-- `getGitDiff` from `scripts/submit-plugin.ts`: with a tag, the diff since
that tag; without one, the diff from the parent of the earliest commit that
added the path, falling back to diffing the path against nothing when no such
commit is found; a git failure is rethrown as
`Failed to get git diff: <message>`. -/
def getGitDiff (repo : GitRepo) (sinceTag : Option String) : Except String String :=
  match sinceTag with
  | some tag =>
    match repo.diffSince tag with
    | .error e => .error ("Failed to get git diff: " ++ e)
    | .ok d => .ok (strTrim d)
  | none =>
    match repo.addLog with
    | .error e => .error ("Failed to get git diff: " ++ e)
    | .ok lines =>
      let firstCommit := trimChars (lastHashField lines)
      if firstCommit = [] then .ok (strTrim repo.diffNoIndex)
      else
        match repo.diffFromParent (String.mk firstCommit) with
        | .error e => .error ("Failed to get git diff: " ++ e)
        | .ok d => .ok (strTrim d)

/-- `getCommitMessages` from `scripts/submit-plugin.ts`: the trimmed one-line
commit log, with any git failure swallowed and mapped to the empty string. -/
def getCommitMessages (repo : GitRepo) (sinceTag : Option String) : String :=
  match sinceTag with
  | some tag =>
    match repo.logSince tag with
    | .error _ => ""
    | .ok m => strTrim m
  | none =>
    match repo.logAll with
    | .error _ => ""
    | .ok m => strTrim m

/-- The diff character budget of `generateChangelog`. -/
def maxDiffLength : Nat := 50000

/-- The truncation `generateChangelog` applies to the diff before placing it
into the generation prompt. -/
def truncatedDiff (diff : String) : String :=
  if diff.length > maxDiffLength then
    String.mk (diff.data.take maxDiffLength) ++ "\n\n[... diff truncated ...]"
  else diff

/-- The tag creation and push commands `createGitTag` shells out to, modelled
as outcomes supplied by the environment: creation is keyed by tag name and
escaped message, pushing by tag name. -/
structure TagOps where
  tagCreate : String → String → Except String Unit
  tagPush : String → Except String Unit

/-- The model of `changelog.replace(/'/g, "'\\''")`. -/
def escapeSingleQuotes : List Char → List Char
  | [] => []
  | c :: rest =>
    if c = '\'' then '\'' :: '\\' :: '\'' :: '\'' :: escapeSingleQuotes rest
    else c :: escapeSingleQuotes rest

/-- The tag name `<slug>-v<version>` built by `createGitTag`. -/
def tagNameFor (name version : String) : String :=
  String.mk (slugify name) ++ "-v" ++ version

/-- `createGitTag` from `scripts/submit-plugin.ts`, returning the log lines
it prints: a failure of either git command is caught and logged with
`Failed to create/push tag:`, never rethrown. -/
def createGitTag (ops : TagOps) (name version changelog : String) : List String :=
  let tagName := tagNameFor name version
  let msg := String.mk (escapeSingleQuotes changelog.data)
  ("[INFO] Creating git tag: " ++ tagName) ::
    (match ops.tagCreate tagName msg with
     | .error e => ["[ERROR] Failed to create/push tag: " ++ e]
     | .ok _ =>
       match ops.tagPush tagName with
       | .error e => ["[ERROR] Failed to create/push tag: " ++ e]
       | .ok _ => ["[SUCCESS] Tag " ++ tagName ++ " created and pushed"])


theorem changelogSection_eq_none_iff (ls : List (List Char)) :
    changelogSection ls = none ↔ ∀ l ∈ ls, isChangelogHeading l = false := by
  induction ls with
  | nil => simp [changelogSection]
  | cons l rest ih =>
    by_cases h : isChangelogHeading l = true
    · simp [changelogSection, h]
    · simp only [Bool.not_eq_true] at h
      simp [changelogSection, h, ih]

/-- C1: `extractChangelog` returns `none` exactly when the body is absent or
empty, no changelog heading line exists, the extracted section is empty after
trimming, or the trimmed section is the single placeholder line `-`; in every
other case it returns the trimmed section text. -/
theorem extractChangelog_none_iff (body : Option String) :
    (extractChangelog body = none ↔
      body = none ∨ body = some "" ∨
      ∃ b, body = some b ∧
        ((∀ l ∈ splitLines b.data, isChangelogHeading l = false) ∨
         ∃ sec, changelogSection (splitLines b.data) = some sec ∧
           (trimChars (joinLines sec) = [] ∨ trimChars (joinLines sec) = ['-']))) ∧
    (∀ b t, body = some b → extractChangelog body = some t →
      ∃ sec, changelogSection (splitLines b.data) = some sec ∧
        t.data = trimChars (joinLines sec) ∧
        t.data ≠ [] ∧ t.data ≠ ['-']) := by
  constructor
  · cases body with
    | none => simp [extractChangelog]
    | some b =>
      by_cases hb : b = ""
      · subst hb; simp [extractChangelog]
      · simp only [extractChangelog, if_neg hb]
        cases hcs : changelogSection (splitLines b.data) with
        | none =>
          simp only [extractFromLines, hcs, Option.map_none']
          constructor
          · intro _
            exact Or.inr (Or.inr ⟨b, rfl, Or.inl ((changelogSection_eq_none_iff _).mp hcs)⟩)
          · intro _; trivial
        | some sec =>
          simp only [extractFromLines, hcs]
          by_cases h1 : trimChars (joinLines sec) = []
          · simp only [h1, if_pos rfl]
            constructor
            · intro _
              exact Or.inr (Or.inr ⟨b, rfl, Or.inr ⟨sec, hcs, Or.inl h1⟩⟩)
            · intro _; trivial
          · by_cases h2 : trimChars (joinLines sec) = ['-']
            · simp only [if_neg h1, h2, if_pos rfl]
              constructor
              · intro _
                exact Or.inr (Or.inr ⟨b, rfl, Or.inr ⟨sec, hcs, Or.inr h2⟩⟩)
              · intro _; trivial
            · simp only [if_neg h1, if_neg h2, Option.map_some']
              constructor
              · intro h; exact absurd h (by simp)
              · rintro (h | h | ⟨b', hb', h⟩)
                · exact absurd h (by simp)
                · exact absurd (Option.some.inj h) hb
                · cases Option.some.inj hb'
                  rcases h with h | ⟨sec', hsec', h⟩
                  · rw [(changelogSection_eq_none_iff _).mpr h] at hcs
                    exact absurd hcs (by simp)
                  · rw [hcs] at hsec'
                    cases Option.some.inj hsec'
                    rcases h with h | h
                    · exact absurd h h1
                    · exact absurd h h2
  · intro b t hb hsome
    subst hb
    by_cases hbe : b = ""
    · simp [extractChangelog, hbe] at hsome
    · simp only [extractChangelog, if_neg hbe, Option.map_eq_some'] at hsome
      obtain ⟨u, hu, hmk⟩ := hsome
      cases hcs : changelogSection (splitLines b.data) with
      | none => simp [extractFromLines, hcs] at hu
      | some sec =>
        simp only [extractFromLines, hcs] at hu
        by_cases h1 : trimChars (joinLines sec) = []
        · simp [h1] at hu
        · by_cases h2 : trimChars (joinLines sec) = ['-']
          · simp [if_neg h1, h2] at hu
          · simp only [if_neg h1, if_neg h2, Option.some.injEq] at hu
            refine ⟨sec, rfl, ?_, ?_, ?_⟩
            · rw [← hmk, ← hu]
            · rw [← hmk, ← hu]; exact h1
            · rw [← hmk, ← hu]; exact h2

theorem hashesThenWs_cons_hash (as : List Char) :
    hashesThenWs ('#' :: as) = hashesThenWs as := by
  simp [hashesThenWs]

theorem hashesThenWs_cons_other (a : Char) (as : List Char) (ha : ¬a = '#') :
    hashesThenWs (a :: as) = a.isWhitespace := by
  simp [hashesThenWs, ha]

theorem hashesThenWs_iff (rest : List Char) :
    hashesThenWs rest = true ↔
      ∃ k c rs, rest = List.replicate k '#' ++ c :: rs ∧ c.isWhitespace = true := by
  induction rest with
  | nil =>
    constructor
    · intro h; exact absurd h (by decide)
    · rintro ⟨k, c, rs, h, -⟩
      cases k with
      | zero => simp at h
      | succ n => rw [List.replicate_succ] at h; simp at h
  | cons a as ih =>
    by_cases ha : a = '#'
    · subst ha
      rw [hashesThenWs_cons_hash, ih]
      constructor
      · rintro ⟨k, c, rs, rfl, hws⟩
        exact ⟨k + 1, c, rs, by rw [List.replicate_succ, List.cons_append], hws⟩
      · rintro ⟨k, c, rs, heq, hws⟩
        cases k with
        | zero =>
          rw [List.replicate_zero, List.nil_append] at heq
          obtain ⟨hc, -⟩ := List.cons.inj heq
          rw [← hc] at hws
          exact absurd hws (by decide)
        | succ n =>
          rw [List.replicate_succ, List.cons_append] at heq
          exact ⟨n, c, rs, (List.cons.inj heq).2, hws⟩
    · rw [hashesThenWs_cons_other a as ha]
      constructor
      · intro hws
        exact ⟨0, a, as, rfl, hws⟩
      · rintro ⟨k, c, rs, heq, hws⟩
        cases k with
        | zero =>
          rw [List.replicate_zero, List.nil_append] at heq
          rw [(List.cons.inj heq).1]
          exact hws
        | succ n =>
          rw [List.replicate_succ, List.cons_append] at heq
          exact absurd (List.cons.inj heq).1 ha

theorem isHeadingLine_iff (l : List Char) :
    isHeadingLine l = true ↔
      ∃ k c rest, l = List.replicate (k + 1) '#' ++ c :: rest ∧ c.isWhitespace = true := by
  cases l with
  | nil =>
    constructor
    · intro h; exact absurd h (by decide)
    · rintro ⟨k, c, rs, h, -⟩
      rw [List.replicate_succ] at h; simp at h
  | cons a as =>
    simp only [isHeadingLine, Bool.and_eq_true, decide_eq_true_eq, hashesThenWs_iff]
    constructor
    · rintro ⟨rfl, k, c, rs, rfl, hws⟩
      exact ⟨k, c, rs, by rw [List.replicate_succ, List.cons_append], hws⟩
    · rintro ⟨k, c, rs, heq, hws⟩
      rw [List.replicate_succ, List.cons_append] at heq
      obtain ⟨ha, has⟩ := List.cons.inj heq
      exact ⟨ha, k, c, rs, has, hws⟩

theorem dropHashes_replicate (k : Nat) (c : Char) (rest : List Char) (hc : ¬c = '#') :
    dropHashes (List.replicate k '#' ++ c :: rest) = c :: rest := by
  induction k with
  | zero => simp [dropHashes, hc]
  | succ n ih =>
    rw [List.replicate_succ, List.cons_append]
    simpa [dropHashes] using ih

theorem isChangelogHeading_iff (l : List Char) :
    isChangelogHeading l = true ↔
      ∃ k c rest, l = List.replicate (k + 1) '#' ++ c :: rest ∧ c.isWhitespace = true ∧
        lowerChars (trimChars (c :: rest)) = "changelog".data := by
  simp only [isChangelogHeading, Bool.and_eq_true, decide_eq_true_eq, isHeadingLine_iff]
  constructor
  · rintro ⟨⟨k, c, rest, rfl, hws⟩, hlow⟩
    have hc : ¬c = '#' := by intro h; rw [h] at hws; exact absurd hws (by decide)
    rw [dropHashes_replicate _ _ _ hc] at hlow
    exact ⟨k, c, rest, rfl, hws, hlow⟩
  · rintro ⟨k, c, rest, rfl, hws, hlow⟩
    have hc : ¬c = '#' := by intro h; rw [h] at hws; exact absurd hws (by decide)
    refine ⟨⟨k, c, rest, rfl, hws⟩, ?_⟩
    rw [dropHashes_replicate _ _ _ hc]
    exact hlow

theorem takeWhile_heading_subst (rs : List (List Char)) :
    ((rs.map fun l => if l = "### Changelog".data then "### CHANGELOG".data else l).takeWhile
        fun x => !isHeadingLine x) =
      rs.takeWhile fun x => !isHeadingLine x := by
  induction rs with
  | nil => rfl
  | cons r rt ih =>
    by_cases hr : r = "### Changelog".data
    · subst hr
      simp only [List.map_cons, if_pos rfl]
      rw [List.takeWhile_cons_of_neg (by decide), List.takeWhile_cons_of_neg (by decide)]
    · simp only [List.map_cons, if_neg hr]
      cases hh : isHeadingLine r with
      | true =>
        rw [List.takeWhile_cons_of_neg (by simp [hh]),
          List.takeWhile_cons_of_neg (by simp [hh])]
      | false =>
        rw [List.takeWhile_cons_of_pos (by simp [hh]),
          List.takeWhile_cons_of_pos (by simp [hh]), ih]

theorem changelogSection_subst (ls : List (List Char)) :
    changelogSection
        (ls.map fun l => if l = "### Changelog".data then "### CHANGELOG".data else l) =
      changelogSection ls := by
  induction ls with
  | nil => rfl
  | cons l rest ih =>
    by_cases hl : l = "### Changelog".data
    · subst hl
      simp only [List.map_cons, if_pos rfl, changelogSection]
      rw [if_pos (by decide), if_pos (by decide), takeWhile_heading_subst]
    · simp only [List.map_cons, if_neg hl, changelogSection]
      cases hc : isChangelogHeading l with
      | true =>
        rw [if_pos (by simp [hc]), if_pos (by simp [hc]), takeWhile_heading_subst]
      | false =>
        rw [if_neg (by simp [hc]), if_neg (by simp [hc]), ih]

/-- C3: a line is the changelog heading exactly when it is one or more `#`
characters followed by a whitespace character and text that, trimmed and
compared case-insensitively, equals `changelog`; consequently replacing the
line `### Changelog` with `### CHANGELOG` in a body never changes the
extraction result. -/
theorem isChangelogHeading_spec :
    (∀ l : List Char, isChangelogHeading l = true ↔
      ∃ k c rest, l = List.replicate (k + 1) '#' ++ c :: rest ∧ c.isWhitespace = true ∧
        lowerChars (trimChars (c :: rest)) = "changelog".data) ∧
    (∀ b : String,
      (extractFromLines ((splitLines b.data).map
          fun l => if l = "### Changelog".data then "### CHANGELOG".data else l)).map
          String.mk =
        extractChangelog (some b)) := by
  refine ⟨isChangelogHeading_iff, ?_⟩
  intro b
  by_cases hb : b = ""
  · subst hb; decide
  · simp only [extractChangelog, if_neg hb, extractFromLines, changelogSection_subst]

theorem isChangelogHeading_spec_witness :
    (extractFromLines ((splitLines "### Changelog\n- y".data).map
        fun l => if l = "### Changelog".data then "### CHANGELOG".data else l)).map
        String.mk =
      extractChangelog (some "### Changelog\n- y") :=
  isChangelogHeading_spec.2 "### Changelog\n- y"

theorem mem_takeWhile_pred {α : Type} (p : α → Bool) :
    ∀ (l : List α) (a : α), a ∈ l.takeWhile p → p a = true
  | [], a, h => by simp [List.takeWhile] at h
  | x :: xs, a, h => by
    by_cases hx : p x = true
    · rw [List.takeWhile_cons_of_pos hx] at h
      rcases List.mem_cons.mp h with h | h
      · subst h; exact hx
      · exact mem_takeWhile_pred p xs a h
    · rw [List.takeWhile_cons_of_neg (by simpa using hx)] at h
      simp at h

theorem dropWhile_head_false {α : Type} (p : α → Bool) :
    ∀ (l : List α) (r : α) (rs : List α), l.dropWhile p = r :: rs → p r = false
  | [], r, rs, h => by simp [List.dropWhile] at h
  | x :: xs, r, rs, h => by
    by_cases hx : p x = true
    · rw [List.dropWhile_cons_of_pos hx] at h
      exact dropWhile_head_false p xs r rs h
    · rw [List.dropWhile_cons_of_neg (by simpa using hx)] at h
      cases h
      simpa using hx

/-- C2: whenever the lines consist of a possibly empty block with no changelog
heading, then a changelog heading, the extracted section is exactly the lines
strictly after that heading, up to but not including the next heading of any
level, or up to end of text when no later heading exists. -/
theorem changelogSection_after_heading (pre : List (List Char)) (h : List Char)
    (post : List (List Char))
    (hpre : ∀ l ∈ pre, isChangelogHeading l = false)
    (hh : isChangelogHeading h = true) :
    ∃ sec rest, changelogSection (pre ++ h :: post) = some sec ∧
      post = sec ++ rest ∧ (∀ l ∈ sec, isHeadingLine l = false) ∧
      (rest = [] ∨ ∃ r rs, rest = r :: rs ∧ isHeadingLine r = true) := by
  induction pre with
  | nil =>
    refine ⟨post.takeWhile (fun x => !isHeadingLine x),
      post.dropWhile (fun x => !isHeadingLine x), ?_, ?_, ?_, ?_⟩
    · simp [changelogSection, hh]
    · exact (List.takeWhile_append_dropWhile ..).symm
    · intro l hl
      have := mem_takeWhile_pred _ _ _ hl
      simpa using this
    · cases hd : post.dropWhile (fun x => !isHeadingLine x) with
      | nil => exact Or.inl rfl
      | cons r rs =>
        refine Or.inr ⟨r, rs, rfl, ?_⟩
        have := dropWhile_head_false _ _ _ _ hd
        simpa using this
  | cons p ps ih =>
    have hp : isChangelogHeading p = false := hpre p (List.mem_cons_self ..)
    have step : changelogSection ((p :: ps) ++ h :: post) =
        changelogSection (ps ++ h :: post) := by
      simp [changelogSection, hp]
    rw [step]
    exact ih fun l hl => hpre l (List.mem_cons_of_mem _ hl)

theorem changelogSection_after_heading_witness :
    ∃ sec rest,
      changelogSection ["intro".data, "### Changelog".data, "- a".data, "- b".data,
          "## Notes".data, "x".data] = some sec ∧
        ["- a".data, "- b".data, "## Notes".data, "x".data] = sec ++ rest ∧
        (∀ l ∈ sec, isHeadingLine l = false) ∧
        (rest = [] ∨ ∃ r rs, rest = r :: rs ∧ isHeadingLine r = true) :=
  changelogSection_after_heading ["intro".data] "### Changelog".data
    ["- a".data, "- b".data, "## Notes".data, "x".data] (by decide) (by decide)

theorem lexLe_cons (x y : Char) (xs ys : List Char) :
    lexLe (x :: xs) (y :: ys) =
      if x.toNat < y.toNat then true
      else if y.toNat < x.toNat then false
      else lexLe xs ys := rfl

theorem lexLe_total (a : List Char) : ∀ b : List Char, lexLe a b = true ∨ lexLe b a = true := by
  induction a with
  | nil => intro b; exact Or.inl rfl
  | cons x xs ih =>
    intro b
    cases b with
    | nil => exact Or.inr rfl
    | cons y ys =>
      rw [lexLe_cons, lexLe_cons]
      rcases Nat.lt_trichotomy x.toNat y.toNat with h | h | h
      · left; rw [if_pos h]
      · rcases ih ys with h2 | h2
        · left; rw [if_neg (by omega), if_neg (by omega)]; exact h2
        · right; rw [if_neg (by omega), if_neg (by omega)]; exact h2
      · right; rw [if_pos h]

theorem lexLe_trans :
    ∀ a b c : List Char, lexLe a b = true → lexLe b c = true → lexLe a c = true
  | [], _, _, _, _ => rfl
  | x :: xs, [], _, hab, _ => by simp [lexLe] at hab
  | _ :: _, _ :: _, [], _, hbc => by simp [lexLe] at hbc
  | x :: xs, y :: ys, z :: zs, hab, hbc => by
    rw [lexLe_cons] at hab hbc ⊢
    by_cases h1 : x.toNat < y.toNat
    · by_cases h2 : y.toNat < z.toNat
      · rw [if_pos (by omega)]
      · rw [if_neg h2] at hbc
        by_cases h3 : z.toNat < y.toNat
        · rw [if_pos h3] at hbc; exact absurd hbc (by decide)
        · rw [if_pos (by omega)]
    · rw [if_neg h1] at hab
      by_cases h4 : y.toNat < x.toNat
      · rw [if_pos h4] at hab; exact absurd hab (by decide)
      · rw [if_neg h4] at hab
        by_cases h2 : y.toNat < z.toNat
        · rw [if_pos (by omega)]
        · rw [if_neg h2] at hbc
          by_cases h3 : z.toNat < y.toNat
          · rw [if_pos h3] at hbc; exact absurd hbc (by decide)
          · rw [if_neg h3] at hbc
            rw [if_neg (by omega), if_neg (by omega)]
            exact lexLe_trans xs ys zs hab hbc

theorem char_eq_of_toNat_eq (a b : Char) (h : a.toNat = b.toNat) : a = b :=
  Char.eq_of_val_eq (UInt32.ext h)

theorem lexLe_antisymm :
    ∀ a b : List Char, lexLe a b = true → lexLe b a = true → a = b
  | [], [], _, _ => rfl
  | [], _ :: _, _, hba => by simp [lexLe] at hba
  | _ :: _, [], hab, _ => by simp [lexLe] at hab
  | x :: xs, y :: ys, hab, hba => by
    rw [lexLe_cons] at hab hba
    by_cases h1 : x.toNat < y.toNat
    · rw [if_neg (by omega), if_pos h1] at hba
      exact absurd hba (by decide)
    · by_cases h2 : y.toNat < x.toNat
      · rw [if_neg h1, if_pos h2] at hab
        exact absurd hab (by decide)
      · rw [if_neg h1, if_neg h2] at hab
        rw [if_neg h2, if_neg h1] at hba
        rw [char_eq_of_toNat_eq x y (by omega), lexLe_antisymm xs ys hab hba]

theorem tokenizeAux_cons (c : Char) (rest acc : List Char) :
    tokenizeAux (c :: rest) acc =
      if isSep c then
        if acc = [] then tokenizeAux rest [] else acc.reverse :: tokenizeAux rest []
      else tokenizeAux rest (c :: acc) := rfl

theorem tokenizeAux_sep_map (s : List Char) :
    ∀ acc : List Char,
      tokenizeAux (s.map fun c => if isSep c then ' ' else c) acc = tokenizeAux s acc := by
  induction s with
  | nil => intro acc; rfl
  | cons c cs ih =>
    intro acc
    simp only [List.map_cons]
    by_cases hc : isSep c = true
    · rw [if_pos hc, tokenizeAux_cons, tokenizeAux_cons, if_pos hc,
        if_pos (by decide : isSep ' ' = true)]
      by_cases ha : acc = []
      · rw [if_pos ha, if_pos ha, ih]
      · rw [if_neg ha, if_neg ha, ih]
    · rw [if_neg hc, tokenizeAux_cons, tokenizeAux_cons, if_neg hc, if_neg hc, ih]

theorem stripLead_eq_some_iff (p : List Char) :
    ∀ t r : List Char, stripLead p t = some r ↔ t = p ++ r := by
  induction p with
  | nil =>
    intro t r
    simp [stripLead, eq_comm]
  | cons x ps ih =>
    intro t r
    cases t with
    | nil =>
      simp only [stripLead, List.cons_append]
      constructor
      · intro h; exact absurd h (by simp)
      · intro h; exact absurd h (by simp)
    | cons y ts =>
      by_cases hxy : x = y
      · subst hxy
        simp only [stripLead, if_pos rfl, List.cons_append, List.cons.injEq, true_and]
        exact ih ts r
      · simp only [stripLead, if_neg hxy, List.cons_append]
        constructor
        · intro h; exact absurd h (by simp)
        · intro h; exact absurd (List.cons.inj h).1.symm hxy

theorem takeWhile_app_stop {α : Type} (p : α → Bool) (l : List α) (x : α) (t : List α)
    (hl : ∀ c ∈ l, p c = true) (hx : p x = false) :
    (l ++ x :: t).takeWhile p = l := by
  induction l with
  | nil =>
    rw [List.nil_append, List.takeWhile_cons_of_neg (by simp [hx])]
  | cons a as ih =>
    rw [List.cons_append, List.takeWhile_cons_of_pos (hl a (List.mem_cons_self ..)),
      ih fun c hc => hl c (List.mem_cons_of_mem _ hc)]

theorem dropWhile_app_stop {α : Type} (p : α → Bool) (l : List α) (x : α) (t : List α)
    (hl : ∀ c ∈ l, p c = true) (hx : p x = false) :
    (l ++ x :: t).dropWhile p = x :: t := by
  induction l with
  | nil =>
    rw [List.nil_append, List.dropWhile_cons_of_neg (by simp [hx])]
  | cons a as ih =>
    rw [List.cons_append, List.dropWhile_cons_of_pos (hl a (List.mem_cons_self ..)),
      ih fun c hc => hl c (List.mem_cons_of_mem _ hc)]

theorem stripLead_self_app (p : List Char) : ∀ t, stripLead p (p ++ t) = some t := by
  induction p with
  | nil => intro t; rfl
  | cons x ps ih => intro t; simp [stripLead, ih]

theorem pluginName_eq_some_iff (tok name : List Char) :
    pluginName tok = some name ↔
      ∃ rest, tok = "plugins/".data ++ name ++ '/' :: rest ∧ name ≠ [] ∧
        ∀ c ∈ name, c ≠ '/' := by
  constructor
  · intro h
    cases hs : stripLead "plugins/".data tok with
    | none => simp [pluginName, hs] at h
    | some r =>
      simp only [pluginName, hs] at h
      cases hd : r.dropWhile (fun c => c ≠ '/') with
      | nil => rw [hd] at h; simp at h
      | cons d ds =>
        rw [hd] at h
        by_cases hn : r.takeWhile (fun c => c ≠ '/') = []
        · rw [if_pos hn] at h; simp at h
        · rw [if_neg hn] at h
          have hname : r.takeWhile (fun c => c ≠ '/') = name := Option.some.inj h
          have hdchar : d = '/' := by
            have hfalse := dropWhile_head_false _ _ _ _ hd
            simpa using hfalse
          have hsplit : (r.takeWhile fun c => c ≠ '/') ++ (r.dropWhile fun c => c ≠ '/') = r :=
            List.takeWhile_append_dropWhile ..
          have hr : r = name ++ '/' :: ds := by
            rw [← hsplit, hname, hd, hdchar]
          refine ⟨ds, ?_, ?_, ?_⟩
          · rw [(stripLead_eq_some_iff _ _ _).mp hs, hr, List.append_assoc]
          · rw [← hname]; exact hn
          · intro c hc
            have hmem := mem_takeWhile_pred _ r c (hname ▸ hc)
            simpa using hmem
  · rintro ⟨rest, rfl, hn, hins⟩
    have ht : ((name ++ '/' :: rest).takeWhile fun c => c ≠ '/') = name :=
      takeWhile_app_stop _ _ _ _ (fun c hc => by simpa using hins c hc) (by simp)
    have hdp : ((name ++ '/' :: rest).dropWhile fun c => c ≠ '/') = '/' :: rest :=
      dropWhile_app_stop _ _ _ _ (fun c hc => by simpa using hins c hc) (by simp)
    rw [List.append_assoc]
    simp only [pluginName, stripLead_self_app, hdp, ht]
    rw [if_neg hn]

theorem mem_parseChangedPlugins (raw s : String) :
    s ∈ parseChangedPlugins raw ↔
      ∃ tok ∈ tokenize raw.data, pluginName tok = some s.data := by
  unfold parseChangedPlugins
  rw [List.mem_insertionSort, List.mem_dedup]
  simp only [List.mem_map, List.mem_filterMap]
  constructor
  · rintro ⟨nm, ⟨tok, htok, hpn⟩, rfl⟩
    exact ⟨tok, htok, hpn⟩
  · rintro ⟨tok, htok, hpn⟩
    exact ⟨s.data, ⟨tok, htok, hpn⟩, rfl⟩

/-- C4: `parseChangedPlugins` always returns a duplicate-free list sorted in
ascending alphabetical order; the result is invariant under permutation of
the whitespace-separated tokens of the input, and space, tab and newline all
behave identically as delimiters. -/
theorem parseChangedPlugins_sorted_dedup_perm :
    (∀ raw : String, List.Sorted strLe (parseChangedPlugins raw) ∧
      (parseChangedPlugins raw).Nodup) ∧
    (∀ r₁ r₂ : String, List.Perm (tokenize r₁.data) (tokenize r₂.data) →
      parseChangedPlugins r₁ = parseChangedPlugins r₂) ∧
    (∀ s : List Char, tokenize (s.map fun c => if isSep c then ' ' else c) = tokenize s) := by
  haveI ht : IsTotal String strLe := ⟨fun a b => lexLe_total a.data b.data⟩
  haveI htr : IsTrans String strLe :=
    ⟨fun a b c hab hbc => lexLe_trans a.data b.data c.data hab hbc⟩
  haveI has : IsAntisymm String strLe :=
    ⟨fun a b hab hba => by
      cases a; cases b
      exact congrArg String.mk (lexLe_antisymm _ _ hab hba)⟩
  letI : DecidableRel strLe := strLeDec
  refine ⟨?_, ?_, ?_⟩
  · intro raw
    exact ⟨List.sorted_insertionSort strLe _,
      ((List.perm_insertionSort strLe _).nodup_iff).mpr (List.nodup_dedup _)⟩
  · intro r₁ r₂ h
    have hd : List.Perm ((((tokenize r₁.data).filterMap pluginName).map String.mk).dedup)
        ((((tokenize r₂.data).filterMap pluginName).map String.mk).dedup) :=
      ((h.filterMap pluginName).map String.mk).dedup
    exact List.eq_of_perm_of_sorted
      ((List.perm_insertionSort strLe _).trans
        (hd.trans (List.perm_insertionSort strLe _).symm))
      (List.sorted_insertionSort strLe _) (List.sorted_insertionSort strLe _)
  · intro s
    exact tokenizeAux_sep_map s []

theorem parseChangedPlugins_sorted_dedup_perm_witness :
    parseChangedPlugins "plugins/b/y plugins/a/x" =
      parseChangedPlugins "plugins/a/x\nplugins/b/y" :=
  parseChangedPlugins_sorted_dedup_perm.2.1 "plugins/b/y plugins/a/x"
    "plugins/a/x\nplugins/b/y" (by decide)

/-- C5: a path contributes a plugin name exactly when it is the project root
`plugins/` followed by a nonempty name segment and a further path component;
root-level files and paths outside `plugins/` never contribute, and empty or
all-whitespace input yields the empty list. -/
theorem pluginName_contributes_iff :
    (∀ raw s : String, s ∈ parseChangedPlugins raw ↔
      ∃ tok ∈ tokenize raw.data, pluginName tok = some s.data) ∧
    (∀ tok name : List Char, pluginName tok = some name ↔
      ∃ rest, tok = "plugins/".data ++ name ++ '/' :: rest ∧ name ≠ [] ∧
        ∀ c ∈ name, c ≠ '/') ∧
    parseChangedPlugins "" = [] ∧ parseChangedPlugins "   " = [] :=
  ⟨mem_parseChangedPlugins, pluginName_eq_some_iff, by decide, by decide⟩

theorem pluginName_contributes_iff_witness :
    "ash" ∈ parseChangedPlugins "plugins/ash/x.ts plugins/README.md" :=
  (pluginName_contributes_iff.1 "plugins/ash/x.ts plugins/README.md" "ash").mpr
    ⟨"plugins/ash/x.ts".data, by decide, by decide⟩

theorem extractChangelog_none_iff_witness :
    ∃ sec, changelogSection (splitLines "### Changelog\n- x".data) = some sec ∧
      "- x".data = trimChars (joinLines sec) ∧ "- x".data ≠ [] ∧ "- x".data ≠ ['-'] :=
  (extractChangelog_none_iff (some "### Changelog\n- x")).2 "### Changelog\n- x" "- x" rfl
    (by decide)

theorem splitLinesAux_no_newline (xs : List Char) :
    ∀ acc : List Char, '\n' ∉ xs → splitLinesAux xs acc = [acc.reverse ++ xs] := by
  induction xs with
  | nil => intro acc _; simp [splitLinesAux]
  | cons c cs ih =>
    intro acc hmem
    have hc : ¬c = '\n' := fun h => hmem (h ▸ List.mem_cons_self ..)
    rw [splitLinesAux, if_neg hc, ih (c :: acc) (fun h => hmem (List.mem_cons_of_mem _ h))]
    simp

theorem splitLinesAux_append_newline (xs : List Char) :
    ∀ (rest acc : List Char), '\n' ∉ xs →
      splitLinesAux (xs ++ '\n' :: rest) acc = (acc.reverse ++ xs) :: splitLinesAux rest [] := by
  induction xs with
  | nil => intro rest acc _; simp [splitLinesAux]
  | cons c cs ih =>
    intro rest acc hmem
    have hc : ¬c = '\n' := fun h => hmem (h ▸ List.mem_cons_self ..)
    rw [List.cons_append, splitLinesAux, if_neg hc,
      ih rest (c :: acc) (fun h => hmem (List.mem_cons_of_mem _ h))]
    simp

theorem joinLines_cons_cons (a b : List Char) (rest : List (List Char)) :
    joinLines (a :: b :: rest) = a ++ '\n' :: joinLines (b :: rest) := rfl

theorem splitLines_joinLines :
    ∀ l : List (List Char), l ≠ [] → (∀ x ∈ l, '\n' ∉ x) →
      splitLines (joinLines l) = l
  | [], h, _ => absurd rfl h
  | [a], _, hx => by
    show splitLinesAux a [] = [a]
    rw [splitLinesAux_no_newline a [] (hx a (List.mem_cons_self ..))]
    simp
  | a :: b :: rest, _, hx => by
    show splitLinesAux (joinLines (a :: b :: rest)) [] = a :: b :: rest
    rw [joinLines_cons_cons,
      splitLinesAux_append_newline a _ [] (hx a (List.mem_cons_self ..))]
    have htail := splitLines_joinLines (b :: rest) (by simp)
      (fun x hxm => hx x (List.mem_cons_of_mem _ hxm))
    rw [show splitLines (joinLines (b :: rest)) =
        splitLinesAux (joinLines (b :: rest)) [] from rfl] at htail
    rw [htail]
    simp

theorem trimChars_eq_self (s : List Char)
    (h1 : ∀ c, s.head? = some c → c.isWhitespace = false)
    (h2 : ∀ c, s.getLast? = some c → c.isWhitespace = false) :
    trimChars s = s := by
  unfold trimChars
  have d1 : s.dropWhile Char.isWhitespace = s := by
    cases s with
    | nil => rfl
    | cons a as => rw [List.dropWhile_cons_of_neg (by simp [h1 a rfl])]
  rw [d1]
  have d2 : s.reverse.dropWhile Char.isWhitespace = s.reverse := by
    cases hr : s.reverse with
    | nil => rfl
    | cons a as =>
      have hlast : s.getLast? = some a := by
        rw [← List.head?_reverse, hr]
        rfl
      rw [List.dropWhile_cons_of_neg (by simp [h2 a hlast])]
  rw [d2, List.reverse_reverse]

theorem joinLines_ne_nil :
    ∀ l : List (List Char), l ≠ [] → (∀ x ∈ l, x ≠ []) → joinLines l ≠ []
  | [], h, _ => absurd rfl h
  | [a], _, hx => by
    show a ≠ []
    exact hx a (List.mem_cons_self ..)
  | a :: b :: rest, _, _ => by
    rw [joinLines_cons_cons]
    cases a with
    | nil => simp
    | cons x xs => simp

theorem head?_joinLines (t : List Char) (rest : List (List Char)) (ht : t ≠ []) :
    (joinLines (t :: rest)).head? = t.head? := by
  cases rest with
  | nil => rfl
  | cons b bs =>
    rw [joinLines_cons_cons]
    cases t with
    | nil => exact absurd rfl ht
    | cons x xs => rfl

theorem getLast?_joinLines :
    ∀ l : List (List Char), l ≠ [] → (∀ x ∈ l, x ≠ []) →
      ∃ t, l.getLast? = some t ∧ (joinLines l).getLast? = t.getLast?
  | [], h, _ => absurd rfl h
  | [a], _, _ => ⟨a, rfl, rfl⟩
  | a :: b :: rest, _, hx => by
    obtain ⟨t, hlast, hjoin⟩ := getLast?_joinLines (b :: rest) (by simp)
      (fun x hxm => hx x (List.mem_cons_of_mem _ hxm))
    refine ⟨t, ?_, ?_⟩
    · rw [List.getLast?_cons_cons]
      exact hlast
    · rw [joinLines_cons_cons, List.getLast?_append_cons,
        show ('\n' :: joinLines (b :: rest)) = ['\n'] ++ joinLines (b :: rest) from rfl,
        List.getLast?_append_of_ne_nil ['\n']
          (joinLines_ne_nil (b :: rest) (by simp)
            (fun x hxm => hx x (List.mem_cons_of_mem _ hxm)))]
      exact hjoin

/-- C6: the tag history resolver is total (it never throws): a failing tag
query gives `none`; with a working repository, an empty match list gives
`none`, and otherwise the result is the first tag of the descending
version-aware sort of the tags matching the slug-derived stem. -/
theorem getLastTagForPlugin_spec (name : String) (repoTags : Option (List String))
    (vle : String → String → Bool) :
    (repoTags = none → getLastTagForPlugin name repoTags vle = none) ∧
    (∀ ts, repoTags = some ts →
      (∀ t ∈ ts, t.data ≠ [] ∧ ∀ c ∈ t.data, c.isWhitespace = false) →
      (sortDescBy vle (ts.filter fun t => matchStart (tagStem name) t.data) = [] →
        getLastTagForPlugin name repoTags vle = none) ∧
      (∀ t rest,
        sortDescBy vle (ts.filter fun t => matchStart (tagStem name) t.data) = t :: rest →
        getLastTagForPlugin name repoTags vle = some t)) := by
  constructor
  · rintro rfl
    rfl
  · rintro ts rfl htags
    have hmem : ∀ x ∈ sortDescBy vle (ts.filter fun t => matchStart (tagStem name) t.data),
        x.data ≠ [] ∧ ∀ c ∈ x.data, c.isWhitespace = false := by
      intro x hx
      have hx2 : x ∈ ts.filter fun t => matchStart (tagStem name) t.data := by
        have hperm := List.perm_insertionSort
          (fun a b : String => vle b a = true)
          (ts.filter fun t => matchStart (tagStem name) t.data)
        exact hperm.mem_iff.mp hx
      exact htags x (List.mem_of_mem_filter hx2)
    constructor
    · intro hempty
      simp only [getLastTagForPlugin, runGitTagList, hempty]
      rfl
    · intro t rest hsort
      simp only [getLastTagForPlugin, runGitTagList, hsort]
      have hml : ∀ x ∈ (t :: rest).map String.data, x ≠ [] := by
        intro x hxm
        obtain ⟨y, hy, rfl⟩ := List.mem_map.mp hxm
        exact (hmem y (hsort ▸ hy)).1
      have hnl : ∀ x ∈ (t :: rest).map String.data, '\n' ∉ x := by
        intro x hxm hc
        obtain ⟨y, hy, rfl⟩ := List.mem_map.mp hxm
        have := (hmem y (hsort ▸ hy)).2 '\n' hc
        exact absurd this (by decide)
      have htrim : trimChars (joinLines ((t :: rest).map String.data)) =
          joinLines ((t :: rest).map String.data) := by
        apply trimChars_eq_self
        · intro c hc
          rw [List.map_cons, head?_joinLines t.data (rest.map String.data)
            (hml t.data (by simp))] at hc
          have hcm : c ∈ t.data := List.mem_of_mem_head? hc
          exact (hmem t (hsort ▸ List.mem_cons_self ..)).2 c hcm
        · intro c hc
          obtain ⟨u, hu, hj⟩ := getLast?_joinLines ((t :: rest).map String.data)
            (by simp) hml
          rw [hj] at hc
          obtain ⟨hcne, hceq⟩ := List.mem_getLast?_eq_getLast hc
          obtain ⟨hune, hueq⟩ := List.mem_getLast?_eq_getLast hu
          have hcm : c ∈ u := by rw [hceq]; exact List.getLast_mem hcne
          have humem : u ∈ (t :: rest).map String.data := by
            rw [hueq]; exact List.getLast_mem hune
          obtain ⟨y, hy, rfl⟩ := List.mem_map.mp humem
          exact (hmem y (hsort ▸ hy)).2 c hcm
      rw [htrim, splitLines_joinLines ((t :: rest).map String.data) (by simp) hnl]
      have hfilter : ((t :: rest).map String.data).filter (fun l => !l.isEmpty) =
          (t :: rest).map String.data := by
        apply List.filter_eq_self.mpr
        intro x hxm
        simp only [Bool.not_eq_true']
        rw [List.isEmpty_eq_false]
        exact hml x hxm
      rw [hfilter]
      rfl

theorem getLastTagForPlugin_spec_witness :
    getLastTagForPlugin "My Plugin" (some ["my-plugin-v2", "other-v9"])
      (fun a b => lexLe a.data b.data) = some "my-plugin-v2" :=
  ((getLastTagForPlugin_spec "My Plugin" (some ["my-plugin-v2", "other-v9"])
      (fun a b => lexLe a.data b.data)).2 ["my-plugin-v2", "other-v9"] rfl
    (by decide)).2 "my-plugin-v2" [] (by decide)

/-- C7: asymmetric failure policies of the change-window operations — a git
failure inside `getGitDiff` is rethrown as an error carrying the underlying
message, while a git failure inside `getCommitMessages` is swallowed and
mapped to the empty string. -/
theorem changeWindow_failure_asymmetry (repo : GitRepo) (msg : String) :
    (∀ tag, repo.diffSince tag = .error msg →
      getGitDiff repo (some tag) = .error ("Failed to get git diff: " ++ msg)) ∧
    (repo.addLog = .error msg →
      getGitDiff repo none = .error ("Failed to get git diff: " ++ msg)) ∧
    (∀ lines, repo.addLog = .ok lines →
      trimChars (lastHashField lines) ≠ [] →
      repo.diffFromParent (String.mk (trimChars (lastHashField lines))) = .error msg →
      getGitDiff repo none = .error ("Failed to get git diff: " ++ msg)) ∧
    (∀ tag, repo.logSince tag = .error msg → getCommitMessages repo (some tag) = "") ∧
    (repo.logAll = .error msg → getCommitMessages repo none = "") := by
  refine ⟨?_, ?_, ?_, ?_, ?_⟩
  · intro tag h
    simp [getGitDiff, h]
  · intro h
    simp [getGitDiff, h]
  · intro lines hlog hne hfail
    simp only [getGitDiff, hlog]
    rw [if_neg hne, hfail]
  · intro tag h
    simp [getCommitMessages, h]
  · intro h
    simp [getCommitMessages, h]

theorem changeWindow_failure_asymmetry_witness :
    getGitDiff
      { diffSince := fun _ => .error "boom", addLog := .error "boom",
        diffFromParent := fun _ => .error "boom", diffNoIndex := "",
        logSince := fun _ => .error "boom", logAll := .error "boom" }
      (some "x-v1") = .error ("Failed to get git diff: " ++ "boom") ∧
    getCommitMessages
      { diffSince := fun _ => .error "boom", addLog := .error "boom",
        diffFromParent := fun _ => .error "boom", diffNoIndex := "",
        logSince := fun _ => .error "boom", logAll := .error "boom" }
      (some "x-v1") = "" :=
  ⟨(changeWindow_failure_asymmetry _ "boom").1 "x-v1" rfl,
   (changeWindow_failure_asymmetry _ "boom").2.2.2.1 "x-v1" rfl⟩

/-- C8: before the diff is placed into the generation request, a diff longer
than 50000 characters is replaced by its first 50000 characters with the
explicit truncation marker appended, and a diff of at most 50000 characters
passes through unchanged. -/
theorem truncatedDiff_spec (diff : String) :
    (diff.length ≤ maxDiffLength → truncatedDiff diff = diff) ∧
    (maxDiffLength < diff.length →
      truncatedDiff diff =
        String.mk (diff.data.take maxDiffLength) ++ "\n\n[... diff truncated ...]") := by
  constructor
  · intro h
    rw [truncatedDiff, if_neg (by omega)]
  · intro h
    rw [truncatedDiff, if_pos (by omega)]

theorem truncatedDiff_spec_witness : truncatedDiff "short diff" = "short diff" :=
  (truncatedDiff_spec "short diff").1 (by decide)

/-- C9: with no `sinceTag`, `getGitDiff` takes the earliest commit that added
the project path (the last line of the add-filtered log) and diffs from that
commit's parent; when no such commit is found it falls back to diffing the
path's current content against nothing. -/
theorem getGitDiff_noTag_spec (repo : GitRepo) (lines : List (List Char)) :
    repo.addLog = .ok lines →
    ((lines = [] → getGitDiff repo none = .ok (strTrim repo.diffNoIndex)) ∧
     (∀ l, lines.getLast? = some l →
       trimChars (l.takeWhile fun c => c ≠ ' ') ≠ [] →
       ∀ d, repo.diffFromParent
           (String.mk (trimChars (l.takeWhile fun c => c ≠ ' '))) = .ok d →
         getGitDiff repo none = .ok (strTrim d))) := by
  intro hlog
  constructor
  · intro hnil
    subst hnil
    simp only [getGitDiff, hlog, lastHashField]
    rfl
  · intro l hl hne d hd
    have hlf : lastHashField lines = l.takeWhile fun c => c ≠ ' ' := by
      simp [lastHashField, hl]
    simp only [getGitDiff, hlog, hlf]
    rw [if_neg hne, hd]

theorem getGitDiff_noTag_spec_witness :
    getGitDiff
      { diffSince := fun _ => .error "", addLog := .ok ["abc123 add plugin".data],
        diffFromParent := fun c => if c = "abc123" then .ok " D " else .error "no",
        diffNoIndex := "", logSince := fun _ => .ok "", logAll := .ok "" } none =
      .ok (strTrim " D ") :=
  ((getGitDiff_noTag_spec _ ["abc123 add plugin".data] rfl).2
    "abc123 add plugin".data rfl (by decide) " D " rfl)

/-- C10: `createGitTag` never propagates an error — it is a total function
into its log lines, and any failure while creating or pushing the tag is
caught and logged, so a tagging failure never aborts the release process. -/
theorem createGitTag_spec (ops : TagOps) (name version changelog : String) :
    (∀ e, ops.tagCreate (tagNameFor name version)
        (String.mk (escapeSingleQuotes changelog.data)) = .error e →
      createGitTag ops name version changelog =
        ["[INFO] Creating git tag: " ++ tagNameFor name version,
         "[ERROR] Failed to create/push tag: " ++ e]) ∧
    (∀ e, ops.tagCreate (tagNameFor name version)
        (String.mk (escapeSingleQuotes changelog.data)) = .ok () →
      ops.tagPush (tagNameFor name version) = .error e →
      createGitTag ops name version changelog =
        ["[INFO] Creating git tag: " ++ tagNameFor name version,
         "[ERROR] Failed to create/push tag: " ++ e]) ∧
    (ops.tagCreate (tagNameFor name version)
        (String.mk (escapeSingleQuotes changelog.data)) = .ok () →
      ops.tagPush (tagNameFor name version) = .ok () →
      createGitTag ops name version changelog =
        ["[INFO] Creating git tag: " ++ tagNameFor name version,
         "[SUCCESS] Tag " ++ tagNameFor name version ++ " created and pushed"]) := by
  refine ⟨?_, ?_, ?_⟩
  · intro e h
    simp [createGitTag, h]
  · intro e h1 h2
    simp [createGitTag, h1, h2]
  · intro h1 h2
    simp [createGitTag, h1, h2]

theorem createGitTag_spec_witness :
    createGitTag { tagCreate := fun _ _ => .error "denied", tagPush := fun _ => .ok () }
      "My Plugin" "1.2.3" "- fixed a bug" =
      ["[INFO] Creating git tag: " ++ tagNameFor "My Plugin" "1.2.3",
       "[ERROR] Failed to create/push tag: " ++ "denied"] :=
  (createGitTag_spec
    { tagCreate := fun _ _ => .error "denied", tagPush := fun _ => .ok () }
    "My Plugin" "1.2.3" "- fixed a bug").1 "denied" rfl

example : extractChangelog none = none := by decide
example : extractChangelog (some "") = none := by decide
example :
    extractChangelog (some "### Changelog\n\n- Added X\n- Fixed Y\n\n### Testing\nz") =
      some "- Added X\n- Fixed Y" := by decide
example : extractChangelog (some "### Changelog\n\n-\n\n### Testing") = none := by decide
example : extractChangelog (some "### Description\nhi\n### Testing") = none := by decide
example : extractChangelog (some "### CHANGELOG\n\n- Fixed bug") = some "- Fixed bug" := by
  decide
example : extractChangelog (some "### Changelog\n\n- A\n\n## Notes\nmore") = some "- A" := by
  decide
example : extractChangelog (some "### Changelog\n\n   - B\n\n### Testing") = some "- B" := by
  decide
example : extractChangelog (some "### Changelog\n\n### Testing\n\n- T") = none := by decide
example :
    parseChangedPlugins "plugins/csv-import/src/index.ts plugins/csv-import/package.json" =
      ["csv-import"] := by decide
example :
    parseChangedPlugins
        "plugins/csv-import/src/a.ts plugins/airtable/src/b.tsx plugins/ashby/framer.json" =
      ["airtable", "ashby", "csv-import"] := by decide
example : parseChangedPlugins "" = [] := by decide
example : parseChangedPlugins "   " = [] := by decide
example : parseChangedPlugins "plugins/.DS_Store plugins/README.md" = [] := by decide
example :
    parseChangedPlugins "plugins/csv-import/src/a.ts\nplugins/airtable/src/b.tsx" =
      ["airtable", "csv-import"] := by decide
example :
    parseChangedPlugins "plugins/csv-import/src/a.ts\tplugins/airtable/src/b.tsx" =
      ["airtable", "csv-import"] := by decide
example : parseChangedPlugins "scripts/submit-plugin.ts README.md" = [] := by decide
example : getLastTagForPlugin "My Plugin" none (fun _ _ => true) = none := by decide
example :
    getLastTagForPlugin "My Plugin" (some ["my-plugin-v1", "other-v2"]) (fun a b => a ≤ b)
      = some "my-plugin-v1" := by decide
example : truncatedDiff "abc" = "abc" := by decide

end Plugins
